import Mathlib

/-!
Shallow embedding of the `pdf_reader` terminal viewer (src/main.rs).

Strings are modelled as `List Char`; Rust's `str::to_lowercase` is modelled
per-character (`Char.toLower`), so byte indices of the source become character
indices here.  Status messages, which are only displayed, are Lean `String`s.
The file first gives the definitions translated from the source, then the
theorems about them.
-/

namespace PdfReader

/-- A rendered span of a line: either plain text or a highlighted match
(`Span::raw` vs `Span::styled` in `ui`). -/
inductive SpanKind where
  | plain
  | matched
deriving DecidableEq

/-- One highlight span: its kind and the underlying text taken from the line. -/
structure TextSpan where
  kind : SpanKind
  text : List Char
deriving DecidableEq

/-- `SearchResult { page, line }` from src/main.rs. -/
structure SearchResult where
  page : Nat
  line : Nat
deriving DecidableEq

/-- `enum InputMode` from src/main.rs. -/
inductive InputMode where
  | Normal
  | PageJump
  | Search
deriving DecidableEq

/-- The `App` struct from src/main.rs. -/
structure App where
  pages : List (List Char)
  current_page : Nat
  scroll_offset : Nat
  should_quit : Bool
  input_mode : InputMode
  input_buffer : List Char
  search_query : List Char
  search_results : List SearchResult
  current_search_result : Nat
  status_message : String
deriving DecidableEq

/-- `App::new` from src/main.rs. -/
def App.new (pdf_content : List (List Char)) : App :=
  { pages := pdf_content
    current_page := 0
    scroll_offset := 0
    should_quit := false
    input_mode := .Normal
    input_buffer := []
    search_query := []
    search_results := []
    current_search_result := 0
    status_message := "" }

/-- Rust `str::to_lowercase`, modelled per character. -/
def lowerStr (s : List Char) : List Char := s.map Char.toLower

/-- Rust `str::find(&str)`: index of the first occurrence of `needle` in
`hay`, if any. -/
def findSubIdx (hay needle : List Char) : Option Nat :=
  if needle.isPrefixOf hay then some 0
  else
    match hay with
    | [] => none
    | _ :: t => (findSubIdx t needle).map (· + 1)

/-- Rust `str::contains(&str)`. -/
def containsSub (hay needle : List Char) : Bool := (findSubIdx hay needle).isSome

/-- The highlight loop of `ui` (src/main.rs lines 417–442): starting at
position `last_end`, repeatedly find the next occurrence of the lowercased
query in the lowercased line, emit the plain text before it and the matched
slice of the original line, and continue after the match. -/
def highlightLoop (line query : List Char) (hq : query ≠ []) (last_end : Nat) :
    List TextSpan :=
  match hfind : findSubIdx ((lowerStr line).drop last_end) (lowerStr query) with
  | some start =>
      let actual_start := last_end + start
      let actual_end := actual_start + query.length
      (if last_end < actual_start then
        [TextSpan.mk .plain ((line.drop last_end).take start)]
       else []) ++
      TextSpan.mk .matched ((line.drop actual_start).take query.length) ::
        highlightLoop line query hq actual_end
  | none =>
      if last_end < line.length then [TextSpan.mk .plain (line.drop last_end)]
      else []
termination_by line.length - last_end
decreasing_by
  have key : ∀ (hay : List Char) (i : Nat), findSubIdx hay (lowerStr query) = some i →
      i + (lowerStr query).length ≤ hay.length := by
    intro hay
    induction hay with
    | nil =>
      intro i h
      unfold findSubIdx at h
      by_cases hp : (lowerStr query).isPrefixOf ([] : List Char)
      · simp only [hp, if_pos] at h
        cases h
        have := List.isPrefixOf_iff_prefix.mp hp
        simpa using this.length_le
      · simp [hp] at h
    | cons c t ih =>
      intro i h
      unfold findSubIdx at h
      by_cases hp : (lowerStr query).isPrefixOf (c :: t)
      · simp only [hp, if_pos] at h
        cases h
        have := List.isPrefixOf_iff_prefix.mp hp
        simpa using this.length_le
      · simp only [hp, if_neg, not_false_iff] at h
        rcases Option.map_eq_some'.mp h with ⟨j, hj, rfl⟩
        have := ih j hj
        simp only [List.length_cons]
        omega
  have hspec := key _ _ hfind
  have hlen : ((lowerStr line).drop last_end).length = line.length - last_end := by
    simp [lowerStr]
  have hql : (lowerStr query).length = query.length := by simp [lowerStr]
  have hq1 : 0 < query.length := List.length_pos.mpr hq
  rw [hlen, hql] at hspec
  omega

/-- The per-line highlight computation of `ui` (src/main.rs lines 414–447):
if the query is non-empty and occurs (case-insensitively) in the line, run the
span loop; otherwise the whole line is a single plain span. -/
def highlightLine (line query : List Char) : List TextSpan :=
  if h : query ≠ [] ∧ containsSub (lowerStr line) (lowerStr query) = true then
    highlightLoop line query h.1 0
  else [TextSpan.mk .plain line]

/-- Concatenation of the underlying text of a span list. -/
def spansText (spans : List TextSpan) : List Char :=
  (spans.map TextSpan.text).flatten

/-- The set of characters Rust's `str::trim` removes: the Unicode
`White_Space` property. -/
def isRustWhitespace (c : Char) : Bool :=
  (9 ≤ c.toNat && c.toNat ≤ 13) || c.toNat = 32 || c.toNat = 0x85 ||
  c.toNat = 0xA0 || c.toNat = 0x1680 ||
  (0x2000 ≤ c.toNat && c.toNat ≤ 0x200A) ||
  c.toNat = 0x2028 || c.toNat = 0x2029 || c.toNat = 0x202F ||
  c.toNat = 0x205F || c.toNat = 0x3000

/-- Rust `str::trim`. -/
def rustTrim (s : List Char) : List Char :=
  ((s.dropWhile isRustWhitespace).reverse.dropWhile isRustWhitespace).reverse

/-- Rust `str::split(sep)`: the segments between occurrences of `sep`
(empty segments included). -/
def splitChar (sep : Char) (s : List Char) : List (List Char) :=
  match s with
  | [] => [[]]
  | c :: rest =>
    if c = sep then [] :: splitChar sep rest
    else
      match splitChar sep rest with
      | [] => [[c]]
      | x :: xs => (c :: x) :: xs

/-- Strip one trailing carriage return, as Rust's `lines` does after removing
a line feed. -/
def stripCR (l : List Char) : List Char :=
  if l.getLast? = some '\r' then l.dropLast else l

/-- Rust `str::lines`: split on `'\n'`; every segment that was terminated by a
line feed also loses one trailing `'\r'`; a trailing line feed produces no
final empty line. -/
def rustLines (s : List Char) : List (List Char) :=
  let parts := splitChar '\n' s
  parts.dropLast.map stripCR ++
    match parts.getLast? with
    | some [] => []
    | some l => [l]
    | none => []

/-- `format_pdf_content` from src/main.rs: trim each line, drop empty lines,
rejoin with line feeds. -/
def formatPdfContent (content : List Char) : List Char :=
  List.intercalate ['\n'] (((rustLines content).map rustTrim).filter fun l => !l.isEmpty)

/-- Body of `chunksOf`, recursing on a fuel bound so that the definition is
structurally recursive (every step consumes at least one list element, so any
fuel of at least the list length yields the true chunking). -/
def chunksOfFuel (n : Nat) : Nat → List α → List (List α)
  | _, [] => []
  | 0, l => [l]
  | fuel + 1, x :: xs => (x :: xs.take (n - 1)) :: chunksOfFuel n fuel (xs.drop (n - 1))

/-- Rust `slice::chunks n` (for `n > 0`): consecutive chunks of `n` elements,
the last possibly shorter. -/
def chunksOf (n : Nat) (l : List α) : List (List α) := chunksOfFuel n l.length l

/-- The page list built from 50-line chunks in the no-form-feed branch of
`split_into_pages` (src/main.rs lines 294–304). -/
def chunkPages (text : List Char) : List (List Char) :=
  ((chunksOf 50 (rustLines text)).map fun chunk =>
    formatPdfContent (List.intercalate ['\n'] chunk)).filter fun f => !(rustTrim f).isEmpty

/-- `split_into_pages` from src/main.rs: split on form feeds when present,
otherwise chunk into 50-line pages, with a single-page fallback when chunking
produced nothing. -/
def splitIntoPages (text : List Char) : List (List Char) :=
  if text.contains '\x0C' then
    ((splitChar '\x0C' text).map formatPdfContent).filter fun page =>
      !(rustTrim page).isEmpty
  else
    if chunkPages text = [] then [formatPdfContent text] else chunkPages text

/-- The inner loop of `App::execute_search`: scan the lines of one page
(page index `pidx`) starting at line index `lidx`, emitting one result per
line whose lowercased form contains the lowercased query. -/
def searchLinesFrom (pidx lidx : Nat) (lines : List (List Char)) (ql : List Char) :
    List SearchResult :=
  match lines with
  | [] => []
  | line :: rest =>
    (if containsSub (lowerStr line) ql then [SearchResult.mk pidx lidx] else []) ++
      searchLinesFrom pidx (lidx + 1) rest ql

/-- The outer loop of `App::execute_search`: scan pages starting at page
index `pidx`. -/
def searchPagesFrom (pidx : Nat) (pages : List (List Char)) (ql : List Char) :
    List SearchResult :=
  match pages with
  | [] => []
  | page :: rest =>
    searchLinesFrom pidx 0 (rustLines page) ql ++ searchPagesFrom (pidx + 1) rest ql

/-- `App::next_page` from src/main.rs. -/
def nextPage (a : App) : App :=
  if a.current_page < a.pages.length - 1 then
    { a with
      current_page := a.current_page + 1
      scroll_offset := 0 }
  else a

/-- `App::prev_page` from src/main.rs. -/
def prevPage (a : App) : App :=
  if 0 < a.current_page then
    { a with
      current_page := a.current_page - 1
      scroll_offset := 0 }
  else a

/-- `App::scroll_down` from src/main.rs. -/
def scrollDown (a : App) : App := { a with scroll_offset := a.scroll_offset + 1 }

/-- `App::scroll_up` from src/main.rs (`saturating_sub` is truncated
subtraction on `Nat`). -/
def scrollUp (a : App) : App := { a with scroll_offset := a.scroll_offset - 1 }

/-- `App::quit` from src/main.rs. -/
def quit (a : App) : App := { a with should_quit := true }

/-- `App::jump_to_page` from src/main.rs. -/
def jumpToPage (a : App) (page_num : Nat) : App :=
  if 0 < page_num ∧ page_num ≤ a.pages.length then
    { a with
      current_page := page_num - 1
      scroll_offset := 0
      status_message := "Jumped to page " ++ toString page_num }
  else
    { a with status_message := "Invalid page number: " ++ toString page_num }

/-- `App::start_page_jump` from src/main.rs. -/
def startPageJump (a : App) : App :=
  { a with
    input_mode := .PageJump
    input_buffer := []
    status_message := "Enter page number:" }

/-- `App::start_search` from src/main.rs. -/
def startSearch (a : App) : App :=
  { a with
    input_mode := .Search
    input_buffer := []
    status_message := "Enter search term:" }

/-- `App::go_to_search_result` from src/main.rs. -/
def goToSearchResult (a : App) : App :=
  match a.search_results.get? a.current_search_result with
  | some result =>
    { a with
      current_page := result.page
      scroll_offset := result.line - 5
      status_message := "Result " ++ toString (a.current_search_result + 1) ++
        " of " ++ toString a.search_results.length ++ " for '" ++
        String.mk a.search_query ++ "'" }
  | none => a

/-- `App::execute_search` from src/main.rs: reject an empty buffer, otherwise
store the query, recompute the result list, and either report zero results or
move to the first one. -/
def executeSearch (a : App) : App :=
  if a.input_buffer = [] then { a with status_message := "Search query is empty" }
  else
    if searchPagesFrom 0 a.pages (lowerStr a.input_buffer) = [] then
      { a with
        search_query := a.input_buffer
        search_results := searchPagesFrom 0 a.pages (lowerStr a.input_buffer)
        status_message := "No results found for '" ++ String.mk a.input_buffer ++ "'" }
    else
      goToSearchResult
        { a with
          search_query := a.input_buffer
          search_results := searchPagesFrom 0 a.pages (lowerStr a.input_buffer)
          current_search_result := 0 }

/-- `App::next_search_result` from src/main.rs. -/
def nextSearchResult (a : App) : App :=
  if a.search_results.isEmpty then a
  else
    goToSearchResult
      { a with current_search_result :=
          (a.current_search_result + 1) % a.search_results.length }

/-- `App::prev_search_result` from src/main.rs. -/
def prevSearchResult (a : App) : App :=
  if a.search_results.isEmpty then a
  else
    goToSearchResult
      { a with current_search_result :=
          if a.current_search_result = 0 then a.search_results.length - 1
          else a.current_search_result - 1 }

/-- `App::cancel_input` from src/main.rs. -/
def cancelInput (a : App) : App :=
  { a with
    input_mode := .Normal
    input_buffer := []
    status_message := "" }

/-- `App::clear_search` from src/main.rs. -/
def clearSearch (a : App) : App :=
  { a with
    search_query := []
    search_results := []
    current_search_result := 0
    status_message := "Search cleared" }

/-- `App::handle_input` from src/main.rs: in page-jump mode only ASCII digits
are appended; in search mode every character is appended. -/
def handleInput (a : App) (c : Char) : App :=
  match a.input_mode with
  | .PageJump =>
    if c.isDigit then { a with input_buffer := a.input_buffer ++ [c] } else a
  | .Search => { a with input_buffer := a.input_buffer ++ [c] }
  | .Normal => a

/-- Rust `str::parse::<usize>()`: an optional leading plus sign, then one or
more ASCII digits, rejecting values that overflow 64-bit `usize`. -/
def parseUsize (s : List Char) : Option Nat :=
  let digits := match s with
    | '+' :: rest => rest
    | _ => s
  if digits ≠ [] ∧ digits.all Char.isDigit then
    let v := digits.foldl (fun acc c => acc * 10 + (c.toNat - 48)) 0
    if v < 2 ^ 64 then some v else none
  else none

/-- `App::submit_input` from src/main.rs. -/
def submitInput (a : App) : App :=
  match a.input_mode with
  | .PageJump =>
    let a1 := match parseUsize a.input_buffer with
      | some page_num => jumpToPage a page_num
      | none => { a with status_message := "Invalid page number" }
    { a1 with
      input_mode := .Normal
      input_buffer := [] }
  | .Search =>
    let a1 := executeSearch a
    { a1 with
      input_mode := .Normal
      input_buffer := [] }
  | .Normal => a

/-- `App::backspace` from src/main.rs (`String::pop` removes the last
character). -/
def backspace (a : App) : App := { a with input_buffer := a.input_buffer.dropLast }

/-- The `Home` key handler inlined in `run_app` (src/main.rs lines 348–351). -/
def goHome (a : App) : App :=
  { a with
    current_page := 0
    scroll_offset := 0 }

/-- The `End` key handler inlined in `run_app` (src/main.rs lines 352–355). -/
def goEnd (a : App) : App :=
  { a with
    current_page := a.pages.length - 1
    scroll_offset := 0 }

/-- The key codes `run_app` dispatches on (a key press of any other code is
ignored in every mode). -/
inductive KeyCode where
  | char (c : Char)
  | esc
  | enter
  | backspaceKey
  | left
  | right
  | up
  | down
  | home
  | endKey
  | other
deriving DecidableEq

/-- The `KeyCode::Char` arm of the Normal-mode dispatch in `run_app`
(src/main.rs lines 332–347), as an if-chain over the character. -/
def stepNormalChar (a : App) (c : Char) : App :=
  if c = 'q' then quit a
  else if c = 'n' then nextPage a
  else if c = 'p' then prevPage a
  else if c = 'j' then scrollDown a
  else if c = 'k' then scrollUp a
  else if c = 'g' then startPageJump a
  else if c = '/' then startSearch a
  else if c = 'F' then nextSearchResult a
  else if c = 'B' then prevSearchResult a
  else a

/-- The `Esc` arm of the Normal-mode dispatch in `run_app`
(src/main.rs lines 333–339). -/
def stepNormalEsc (a : App) : App :=
  if a.search_query ≠ [] then clearSearch a else quit a

/-- One iteration of the key-press dispatch in `run_app`
(src/main.rs lines 329–368). -/
def step (a : App) (k : KeyCode) : App :=
  match a.input_mode with
  | .Normal =>
    match k with
    | .char c => stepNormalChar a c
    | .esc => stepNormalEsc a
    | .right => nextPage a
    | .left => prevPage a
    | .down => scrollDown a
    | .up => scrollUp a
    | .home => goHome a
    | .endKey => goEnd a
    | _ => a
  | .PageJump | .Search =>
    match k with
    | .enter => submitInput a
    | .esc => cancelInput a
    | .backspaceKey => backspace a
    | .char c => handleInput a c
    | _ => a

/-- The lexicographic strict order on search results demanded by the spec's
ordering contract. -/
def resLt (r s : SearchResult) : Prop :=
  r.page < s.page ∨ (r.page = s.page ∧ r.line < s.line)

/-- The navigation invariant: a non-empty document, an in-range current page,
and every stored search result naming an in-range page. -/
def Inv (a : App) : Prop :=
  a.pages ≠ [] ∧ a.current_page < a.pages.length ∧
    ∀ r ∈ a.search_results, r.page < a.pages.length

/-- A concrete two-page app with three stored search results, used by the
witnesses. -/
def appResults : App :=
  { App.new [['a'], ['b', '\n', 'c']] with
    search_results := [SearchResult.mk 0 0, SearchResult.mk 1 0, SearchResult.mk 1 1] }

/-- A concrete one-page app scrolled down one line, used by the witnesses. -/
def appScrolled : App := { App.new [['a']] with scroll_offset := 1 }

/-- A concrete app with no pages and a pending one-character query, used by
the witnesses. -/
def appNoPages : App := { App.new [] with input_buffer := ['z'] }

/-! ## Theorems -/

theorem findSubIdx_spec {hay needle : List Char} {i : Nat}
    (h : findSubIdx hay needle = some i) :
    needle.isPrefixOf (hay.drop i) = true ∧ i + needle.length ≤ hay.length := by
  induction hay generalizing i with
  | nil =>
    unfold findSubIdx at h
    by_cases hp : needle.isPrefixOf ([] : List Char)
    · simp only [hp, if_pos] at h
      cases h
      refine ⟨hp, ?_⟩
      have := List.isPrefixOf_iff_prefix.mp hp
      simpa using this.length_le
    · simp [hp] at h
  | cons c t ih =>
    unfold findSubIdx at h
    by_cases hp : needle.isPrefixOf (c :: t)
    · simp only [hp, if_pos] at h
      cases h
      refine ⟨by simpa using hp, ?_⟩
      have := List.isPrefixOf_iff_prefix.mp hp
      simpa using this.length_le
    · simp only [hp, if_neg, not_false_iff] at h
      rcases Option.map_eq_some'.mp h with ⟨j, hj, rfl⟩
      rcases ih hj with ⟨h1, h2⟩
      refine ⟨by simpa using h1, ?_⟩
      simp only [List.length_cons]
      omega

theorem spansText_nil : spansText [] = [] := rfl

theorem spansText_cons (s : TextSpan) (l : List TextSpan) :
    spansText (s :: l) = s.text ++ spansText l := by simp [spansText]

theorem spansText_append (l1 l2 : List TextSpan) :
    spansText (l1 ++ l2) = spansText l1 ++ spansText l2 := by simp [spansText]

theorem drop_take_drop (l : List Char) (a b : Nat) :
    (l.drop a).take b ++ l.drop (a + b) = l.drop a := by
  have h : l.drop (a + b) = (l.drop a).drop b := by
    rw [List.drop_drop, Nat.add_comm]
  rw [h, List.take_append_drop]

theorem highlightLoop_spansText (line query : List Char) (hq : query ≠ []) (last_end : Nat)
    (hle : last_end ≤ line.length) :
    spansText (highlightLoop line query hq last_end) = line.drop last_end := by
  revert hle
  induction last_end using highlightLoop.induct line query hq with
  | case1 x start hfind a_start a_end ih =>
    intro hle
    have hspec := findSubIdx_spec hfind
    have hlen : ((lowerStr line).drop x).length = line.length - x := by simp [lowerStr]
    have hql : (lowerStr query).length = query.length := by simp [lowerStr]
    rw [hlen, hql] at hspec
    have hq1 : 0 < query.length := List.length_pos.mpr hq
    have hend : x + start + query.length ≤ line.length := by omega
    rw [highlightLoop.eq_def]
    split
    case _ start' hfind' =>
      rw [hfind] at hfind'
      injection hfind' with hstart
      subst hstart
      rw [spansText_append, spansText_cons]
      rw [ih (by omega)]
      rcases Nat.eq_zero_or_pos start with h0 | hpos
      · subst h0
        simp only [Nat.add_zero, Nat.lt_irrefl, if_false]
        rw [spansText_nil, List.nil_append]
        exact drop_take_drop line x query.length
      · simp only [Nat.lt_add_right_iff_pos.mpr hpos, if_true]
        rw [spansText_cons, spansText_nil, List.append_nil]
        show (line.drop x).take start ++
            ((line.drop (x + start)).take query.length ++ line.drop (x + start + query.length)) =
          line.drop x
        rw [drop_take_drop line (x + start) query.length, drop_take_drop line x start]
    case _ hfind' =>
      rw [hfind] at hfind'
      cases hfind'
  | case2 x hfind hlt =>
    intro hle
    rw [highlightLoop.eq_def]
    split
    case _ start' hfind' => rw [hfind] at hfind'; cases hfind'
    case _ => simp only [hlt, if_true]; rw [spansText_cons, spansText_nil, List.append_nil]
  | case3 x hfind hnlt =>
    intro hle
    have hx : x = line.length := by omega
    rw [highlightLoop.eq_def]
    split
    case _ start' hfind' => rw [hfind] at hfind'; cases hfind'
    case _ => simp [hnlt, hx, spansText_nil]

/-- C1: for every line and every query, the highlight computation produces
spans whose underlying text, concatenated in order, reproduces the original
line exactly (the spans are generated by repeatedly locating the next
case-insensitive occurrence of the query strictly after the previous match,
exactly as `highlightLoop` is defined from the source). -/
theorem highlight_roundtrip (line query : List Char) :
    spansText (highlightLine line query) = line := by
  unfold highlightLine
  split
  case _ h => rw [highlightLoop_spansText line query h.1 0 (Nat.zero_le _)]; rfl
  case _ h => rw [spansText_cons, spansText_nil, List.append_nil]


/-- C2 counterexample: on the input consisting of a single form feed, every
segment normalizes to empty, yet no fallback happens in the form-feed branch:
pagination returns the empty page list, refuting the claim that the fallback
applies whenever splitting-and-normalizing yields zero pages. -/
theorem splitIntoPages_formfeed_empty : splitIntoPages ['\x0C'] = [] := by decide

/-- C2 amended: only for inputs that contain no form feed does the fallback
hold: if chunking-and-normalizing yields zero non-empty pages, pagination
returns exactly one page containing the normalized whole input, and in this
branch the page list is never empty.  (With form feeds present, dropping all
empty segments can return an empty list, as the counterexample shows.) -/
theorem splitIntoPages_fallback (text : List Char) (hff : text.contains '\x0C' = false) :
    splitIntoPages text ≠ [] ∧
      (chunkPages text = [] → splitIntoPages text = [formatPdfContent text]) := by
  unfold splitIntoPages
  simp only [hff, Bool.false_eq_true, if_false]
  by_cases hp : chunkPages text = []
  · simp [hp]
  · simp [hp]

theorem mem_searchLinesFrom {pidx lidx : Nat} {lines : List (List Char)} {ql : List Char}
    {r : SearchResult} :
    r ∈ searchLinesFrom pidx lidx lines ql ↔
      ∃ j line, lines.get? j = some line ∧ r = SearchResult.mk pidx (lidx + j) ∧
        containsSub (lowerStr line) ql = true := by
  induction lines generalizing lidx with
  | nil => simp [searchLinesFrom]
  | cons l rest ih =>
    simp only [searchLinesFrom, List.mem_append]
    constructor
    · rintro (h1 | h2)
      · by_cases hc : containsSub (lowerStr l) ql = true
        · rw [if_pos hc] at h1
          simp only [List.mem_singleton] at h1
          exact ⟨0, l, by simp, by simpa using h1, hc⟩
        · rw [if_neg hc] at h1
          simp at h1
      · rcases ih.mp h2 with ⟨j, line, hget, hr, hm⟩
        refine ⟨j + 1, line, by simpa using hget, ?_, hm⟩
        rw [hr]
        simp only [SearchResult.mk.injEq, true_and]
        omega
    · rintro ⟨j, line, hget, hr, hm⟩
      cases j with
      | zero =>
        simp only [List.get?_cons_zero, Option.some.injEq] at hget
        subst hget
        left
        rw [if_pos hm]
        simpa using hr
      | succ j' =>
        right
        apply ih.mpr
        refine ⟨j', line, by simpa using hget, ?_, hm⟩
        rw [hr]
        simp only [SearchResult.mk.injEq, true_and]
        omega

theorem mem_searchPagesFrom {pidx : Nat} {pages : List (List Char)} {ql : List Char}
    {r : SearchResult} :
    r ∈ searchPagesFrom pidx pages ql ↔
      ∃ i page line, pages.get? i = some page ∧ r.page = pidx + i ∧
        (rustLines page).get? r.line = some line ∧
        containsSub (lowerStr line) ql = true := by
  induction pages generalizing pidx with
  | nil => simp [searchPagesFrom]
  | cons p rest ih =>
    simp only [searchPagesFrom, List.mem_append]
    rw [mem_searchLinesFrom, ih]
    constructor
    · rintro (⟨j, line, hget, hr, hm⟩ | ⟨i, page, line, hget, hpage, hl, hm⟩)
      · refine ⟨0, p, line, by simp, by rw [hr]; simp, ?_, hm⟩
        rw [hr]
        simpa using hget
      · exact ⟨i + 1, page, line, by simpa using hget, by omega, hl, hm⟩
    · rintro ⟨i, page, line, hget, hpage, hl, hm⟩
      cases i with
      | zero =>
        simp only [List.get?_cons_zero, Option.some.injEq] at hget
        subst hget
        left
        refine ⟨r.line, line, by simpa [hpage] using hl, ?_, hm⟩
        cases r
        simp_all
      | succ i' =>
        right
        exact ⟨i', page, line, by simpa using hget, by omega, hl, hm⟩


theorem searchLinesFrom_bounds {pidx lidx : Nat} {lines : List (List Char)}
    {ql : List Char} :
    ∀ r ∈ searchLinesFrom pidx lidx lines ql, r.page = pidx ∧ lidx ≤ r.line := by
  intro r hr
  rcases mem_searchLinesFrom.mp hr with ⟨j, line, _, hr', _⟩
  subst hr'
  exact ⟨rfl, by simp⟩

theorem pairwise_searchLinesFrom (pidx lidx : Nat) (lines : List (List Char))
    (ql : List Char) :
    (searchLinesFrom pidx lidx lines ql).Pairwise resLt := by
  induction lines generalizing lidx with
  | nil => simp [searchLinesFrom]
  | cons l rest ih =>
    rw [searchLinesFrom, List.pairwise_append]
    refine ⟨?_, ih (lidx + 1), ?_⟩
    · split <;> simp
    · intro a ha b hb
      have hb' := searchLinesFrom_bounds b hb
      have ha' : a = SearchResult.mk pidx lidx := by
        split at ha
        · simpa using ha
        · simp at ha
      subst ha'
      right
      exact ⟨hb'.1.symm, by simpa using hb'.2⟩

theorem pairwise_searchPagesFrom (pidx : Nat) (pages : List (List Char))
    (ql : List Char) :
    (searchPagesFrom pidx pages ql).Pairwise resLt := by
  induction pages generalizing pidx with
  | nil => simp [searchPagesFrom]
  | cons p rest ih =>
    rw [searchPagesFrom, List.pairwise_append]
    refine ⟨pairwise_searchLinesFrom _ _ _ _, ih (pidx + 1), ?_⟩
    intro a ha b hb
    have ha' := (searchLinesFrom_bounds a ha).1
    have hb' : pidx + 1 ≤ b.page := by
      rcases mem_searchPagesFrom.mp hb with ⟨i, _, _, _, hpage, _, _⟩
      omega
    left
    omega

/-- C3: the search scan visits pages then lines in ascending order, so the
result list is strictly sorted in lexicographic (page, line) order (hence
without duplicates: one result per matching line), and a result exists for
exactly the lines whose lowercased form contains the query; in particular the
list is empty when the query occurs nowhere, and as a pure function the scan
is deterministic. -/
theorem search_scan_spec (pages : List (List Char)) (ql : List Char) :
    (searchPagesFrom 0 pages ql).Pairwise resLt ∧
    (searchPagesFrom 0 pages ql).Nodup ∧
    ∀ r : SearchResult, r ∈ searchPagesFrom 0 pages ql ↔
      ∃ page line, pages.get? r.page = some page ∧
        (rustLines page).get? r.line = some line ∧
        containsSub (lowerStr line) ql = true := by
  refine ⟨pairwise_searchPagesFrom 0 pages ql, ?_, ?_⟩
  · refine (pairwise_searchPagesFrom 0 pages ql).imp ?_
    intro a b h
    rcases h with h | ⟨h1, h2⟩ <;> intro he <;> subst he <;> omega
  · intro r
    rw [mem_searchPagesFrom]
    constructor
    · rintro ⟨i, page, line, hget, hpage, hl, hm⟩
      refine ⟨page, line, ?_, hl, hm⟩
      rw [hpage, Nat.zero_add]
      exact hget
    · rintro ⟨page, line, hget, hl, hm⟩
      exact ⟨r.page, page, line, hget, by omega, hl, hm⟩

theorem search_scan_spec_witness :
    (SearchResult.mk 0 0) ∈ searchPagesFrom 0 [['a']] ['a'] :=
  ((search_scan_spec [['a']] ['a']).2.2 (SearchResult.mk 0 0)).mpr
    ⟨['a'], ['a'], by decide, by decide, by decide⟩

theorem splitIntoPages_fallback_witness :
    splitIntoPages [' '] ≠ [] ∧ splitIntoPages [' '] = [formatPdfContent [' ']] := by
  have h := splitIntoPages_fallback [' '] (by decide)
  exact ⟨h.1, h.2 (by decide)⟩


/-- C4: a page jump to n with 1 ≤ n ≤ number-of-pages sets the zero-based
current page to n − 1, resets the scroll offset and emits a confirmation
status; any other n leaves current page and scroll offset unchanged and emits
an invalid-page-number status.  `jumpToPage` is a total function, so it never
panics. -/
theorem jump_to_page_spec (a : App) (n : Nat) :
    (1 ≤ n → n ≤ a.pages.length →
      jumpToPage a n = { a with
        current_page := n - 1
        scroll_offset := 0
        status_message := "Jumped to page " ++ toString n }) ∧
    ((n = 0 ∨ a.pages.length < n) →
      jumpToPage a n =
        { a with status_message := "Invalid page number: " ++ toString n }) := by
  unfold jumpToPage
  constructor
  · intro h1 h2
    rw [if_pos ⟨h1, h2⟩]
  · intro h
    rw [if_neg (by omega)]

theorem jump_to_page_spec_witness :
    jumpToPage (App.new [['a']]) 1 = { App.new [['a']] with
      current_page := 0
      scroll_offset := 0
      status_message := "Jumped to page 1" } ∧
    jumpToPage (App.new [['a']]) 0 =
      { App.new [['a']] with status_message := "Invalid page number: 0" } :=
  ⟨(jump_to_page_spec (App.new [['a']]) 1).1 (by decide) (by decide),
   (jump_to_page_spec (App.new [['a']]) 0).2 (Or.inl rfl)⟩

/-- C5: when the result cursor indexes a result r, moving to it sets the
current page to r.page and the scroll offset to r.line − 5 saturated at 0;
when the cursor is past the end of the result list, nothing changes. -/
theorem go_to_search_result_spec (a : App) :
    (∀ r, a.search_results.get? a.current_search_result = some r →
      goToSearchResult a = { a with
        current_page := r.page
        scroll_offset := r.line - 5
        status_message := "Result " ++ toString (a.current_search_result + 1) ++
          " of " ++ toString a.search_results.length ++ " for '" ++
          String.mk a.search_query ++ "'" }) ∧
    (a.search_results.get? a.current_search_result = none →
      goToSearchResult a = a) := by
  unfold goToSearchResult
  constructor
  · intro r hr
    rw [hr]
  · intro hn
    rw [hn]

theorem go_to_search_result_spec_witness :
    goToSearchResult appResults = { appResults with
      current_page := 0
      scroll_offset := 0
      status_message := "Result 1 of 3 for ''" } ∧
    goToSearchResult { appResults with current_search_result := 5 } =
      { appResults with current_search_result := 5 } :=
  ⟨(go_to_search_result_spec appResults).1 (SearchResult.mk 0 0) rfl,
   (go_to_search_result_spec { appResults with current_search_result := 5 }).2 rfl⟩

theorem goToSearchResult_results (a : App) :
    (goToSearchResult a).search_results = a.search_results ∧
    (goToSearchResult a).current_search_result = a.current_search_result := by
  unfold goToSearchResult
  split <;> exact ⟨rfl, rfl⟩

theorem nextSearchResult_results (a : App) :
    (nextSearchResult a).search_results = a.search_results := by
  unfold nextSearchResult
  split
  · rfl
  · rw [(goToSearchResult_results _).1]

theorem nextSearchResult_fields (a : App) (h : a.search_results ≠ []) :
    (nextSearchResult a).search_results = a.search_results ∧
    (nextSearchResult a).current_search_result =
      (a.current_search_result + 1) % a.search_results.length := by
  unfold nextSearchResult
  rw [if_neg (by simp [List.isEmpty_iff, h])]
  refine ⟨?_, ?_⟩
  · rw [(goToSearchResult_results _).1]
  · rw [(goToSearchResult_results _).2]

theorem nextSearchResult_iterate (a : App) (h : a.search_results ≠ []) (m : Nat) :
    (nextSearchResult^[m] a).search_results = a.search_results ∧
    (nextSearchResult^[m + 1] a).current_search_result =
      (a.current_search_result + m + 1) % a.search_results.length := by
  induction m with
  | zero =>
    refine ⟨rfl, ?_⟩
    rw [Function.iterate_one]
    exact (nextSearchResult_fields a h).2
  | succ m ih =>
    have hres : (nextSearchResult^[m + 1] a).search_results = a.search_results := by
      rw [Function.iterate_succ_apply', nextSearchResult_results, ih.1]
    refine ⟨hres, ?_⟩
    rw [Function.iterate_succ_apply']
    have h2 : (nextSearchResult^[m + 1] a).search_results ≠ [] := by
      rw [hres]; exact h
    have h3 : a.current_search_result + m + 1 + 1 =
        a.current_search_result + (m + 1) + 1 := by omega
    rw [(nextSearchResult_fields _ h2).2, hres, ih.2, Nat.mod_add_mod, h3]

/-- C6: with a non-empty result list of length k and cursor c < k, the next
and previous operations move the cursor to (c+1) mod k and (c+k−1) mod k, and
k successive next operations return the cursor to c; on an empty result list
both operations leave the whole state unchanged. -/
theorem search_result_cycling (a : App) :
    (a.search_results = [] → nextSearchResult a = a ∧ prevSearchResult a = a) ∧
    (∀ c k, a.search_results.length = k → a.current_search_result = c → c < k →
      (nextSearchResult a).current_search_result = (c + 1) % k ∧
      (prevSearchResult a).current_search_result = (c + k - 1) % k ∧
      (nextSearchResult^[k] a).current_search_result = c) := by
  constructor
  · intro he
    unfold nextSearchResult prevSearchResult
    rw [he]
    exact ⟨rfl, rfl⟩
  · intro c k hk hc hlt
    have hne : a.search_results ≠ [] := by
      intro he
      rw [he] at hk
      simp at hk
      omega
    refine ⟨?_, ?_, ?_⟩
    · rw [(nextSearchResult_fields a hne).2, hk, hc]
    · unfold prevSearchResult
      rw [if_neg (by simp [List.isEmpty_iff, hne])]
      rw [(goToSearchResult_results _).2]
      show (if a.current_search_result = 0 then a.search_results.length - 1
        else a.current_search_result - 1) = (c + k - 1) % k
      rw [hc, hk]
      by_cases h0 : c = 0
      · subst h0
        rw [if_pos rfl]
        have h1 : 0 + k - 1 = k - 1 := by omega
        rw [h1, Nat.mod_eq_of_lt (by omega)]
      · rw [if_neg h0]
        have h1 : c + k - 1 = (c - 1) + k := by omega
        rw [h1, Nat.add_mod_right, Nat.mod_eq_of_lt (by omega)]
    · cases k with
      | zero => omega
      | succ q =>
        have hit := (nextSearchResult_iterate a hne q).2
        rw [hk, hc] at hit
        rw [hit]
        have h1 : c + q + 1 = c + (q + 1) := by omega
        rw [h1, Nat.add_mod_right, Nat.mod_eq_of_lt hlt]

theorem search_result_cycling_witness :
    (nextSearchResult appResults).current_search_result = 1 ∧
    (prevSearchResult appResults).current_search_result = 2 ∧
    (nextSearchResult^[3] appResults).current_search_result = 0 ∧
    nextSearchResult (App.new [['a']]) = App.new [['a']] := by
  have h := (search_result_cycling appResults).2 0 3 rfl rfl (by decide)
  have h0 := (search_result_cycling (App.new [['a']])).1 rfl
  exact ⟨h.1, h.2.1, h.2.2, h0.1⟩

/-- C7 counterexample: at the last page with a non-zero scroll offset,
next_page changes nothing, so the scroll offset does not become 0, refuting
the claim that next_page always resets it. -/
theorem next_page_scroll_cex : (nextPage appScrolled).scroll_offset ≠ 0 := by
  decide

/-- C7 amended: next_page and prev_page reset the scroll offset to 0 exactly
when they change the page; at the last (resp. first) page they leave the
state entirely unchanged; and repeated scroll_up from offset 0 keeps it at 0. -/
theorem page_nav_scroll_spec (a : App) :
    (a.current_page < a.pages.length - 1 → (nextPage a).scroll_offset = 0) ∧
    (¬ a.current_page < a.pages.length - 1 → nextPage a = a) ∧
    (0 < a.current_page → (prevPage a).scroll_offset = 0) ∧
    (¬ 0 < a.current_page → prevPage a = a) ∧
    (a.scroll_offset = 0 → ∀ m, (scrollUp^[m] a).scroll_offset = 0) := by
  refine ⟨?_, ?_, ?_, ?_, ?_⟩
  · intro h
    unfold nextPage
    rw [if_pos h]
  · intro h
    unfold nextPage
    rw [if_neg h]
  · intro h
    unfold prevPage
    rw [if_pos h]
  · intro h
    unfold prevPage
    rw [if_neg h]
  · intro h m
    have hfix : scrollUp a = a := by
      cases a
      simp only [scrollUp] at h ⊢
      simp_all
    rw [Function.iterate_fixed hfix]
    exact h

theorem page_nav_scroll_spec_witness :
    (nextPage (App.new [['a'], ['b']])).scroll_offset = 0 ∧
    prevPage (App.new [['a']]) = App.new [['a']] ∧
    (scrollUp^[2] (App.new [['a']])).scroll_offset = 0 :=
  ⟨(page_nav_scroll_spec (App.new [['a'], ['b']])).1 (by decide),
   (page_nav_scroll_spec (App.new [['a']])).2.2.2.1 (by decide),
   (page_nav_scroll_spec (App.new [['a']])).2.2.2.2 rfl 2⟩

/-- C8: submitting a search with an empty input buffer only sets the status
message; the stored query, result list, result cursor, current page and
scroll offset are untouched and no search is performed. -/
theorem execute_search_empty_query (a : App) (h : a.input_buffer = []) :
    executeSearch a = { a with status_message := "Search query is empty" } := by
  unfold executeSearch
  rw [if_pos h]

theorem execute_search_empty_query_witness :
    executeSearch (App.new [['a']]) =
      { App.new [['a']] with status_message := "Search query is empty" } :=
  execute_search_empty_query (App.new [['a']]) rfl

/-- C10: a non-empty query matching no line still overwrites the stored query
and empties the result list, while the result cursor, current page and scroll
offset keep their previous values. -/
theorem execute_search_no_match (a : App) (hne : a.input_buffer ≠ [])
    (hnm : searchPagesFrom 0 a.pages (lowerStr a.input_buffer) = []) :
    executeSearch a = { a with
      search_query := a.input_buffer
      search_results := []
      status_message := "No results found for '" ++
        String.mk a.input_buffer ++ "'" } := by
  unfold executeSearch
  rw [if_neg hne, if_pos hnm, hnm]

theorem execute_search_no_match_witness :
    executeSearch appNoPages = { appNoPages with
      search_query := ['z']
      search_results := []
      status_message := "No results found for 'z'" } :=
  execute_search_no_match appNoPages (by decide) rfl


theorem searchPagesFrom_page_lt {pages : List (List Char)} {ql : List Char}
    {r : SearchResult} (h : r ∈ searchPagesFrom 0 pages ql) :
    r.page < pages.length := by
  rcases mem_searchPagesFrom.mp h with ⟨i, page, line, hget, hpage, _, _⟩
  rcases List.get?_eq_some.mp hget with ⟨hi, _⟩
  omega

theorem inv_goToSearchResult (a : App) (h : Inv a) : Inv (goToSearchResult a) := by
  unfold goToSearchResult
  split
  case _ r hr =>
    exact ⟨h.1, h.2.2 r (List.get?_mem hr), h.2.2⟩
  case _ => exact h

theorem inv_nextPage (a : App) (h : Inv a) : Inv (nextPage a) := by
  unfold nextPage
  split
  case _ hlt =>
    refine ⟨h.1, ?_, h.2.2⟩
    show a.current_page + 1 < a.pages.length
    omega
  case _ => exact h

theorem inv_prevPage (a : App) (h : Inv a) : Inv (prevPage a) := by
  unfold prevPage
  split
  case _ hlt =>
    refine ⟨h.1, ?_, h.2.2⟩
    show a.current_page - 1 < a.pages.length
    have := h.2.1
    omega
  case _ => exact h

theorem inv_jumpToPage (a : App) (h : Inv a) (n : Nat) : Inv (jumpToPage a n) := by
  unfold jumpToPage
  split
  case _ hn =>
    refine ⟨h.1, ?_, h.2.2⟩
    show n - 1 < a.pages.length
    omega
  case _ => exact ⟨h.1, h.2.1, h.2.2⟩

theorem inv_goHome (a : App) (h : Inv a) : Inv (goHome a) := by
  refine ⟨h.1, ?_, h.2.2⟩
  have : a.pages.length ≠ 0 := by
    intro h0
    exact h.1 (List.length_eq_zero.mp h0)
  show 0 < a.pages.length
  omega

theorem inv_goEnd (a : App) (h : Inv a) : Inv (goEnd a) := by
  refine ⟨h.1, ?_, h.2.2⟩
  have : a.pages.length ≠ 0 := by
    intro h0
    exact h.1 (List.length_eq_zero.mp h0)
  show a.pages.length - 1 < a.pages.length
  omega

theorem inv_executeSearch (a : App) (h : Inv a) : Inv (executeSearch a) := by
  unfold executeSearch
  split
  case _ => exact h
  case _ =>
    split
    case _ hnil => exact ⟨h.1, h.2.1, by rw [hnil]; simp⟩
    case _ hnil =>
      apply inv_goToSearchResult
      exact ⟨h.1, h.2.1, fun r hr => searchPagesFrom_page_lt hr⟩

theorem inv_nextSearchResult (a : App) (h : Inv a) : Inv (nextSearchResult a) := by
  unfold nextSearchResult
  split
  case _ => exact h
  case _ => exact inv_goToSearchResult _ ⟨h.1, h.2.1, h.2.2⟩

theorem inv_prevSearchResult (a : App) (h : Inv a) : Inv (prevSearchResult a) := by
  unfold prevSearchResult
  split
  case _ => exact h
  case _ => exact inv_goToSearchResult _ ⟨h.1, h.2.1, h.2.2⟩

theorem inv_clearSearch (a : App) (h : Inv a) : Inv (clearSearch a) :=
  ⟨h.1, h.2.1, by simp [clearSearch]⟩

theorem inv_handleInput (a : App) (h : Inv a) (c : Char) : Inv (handleInput a c) := by
  unfold handleInput
  split
  · split
    · exact ⟨h.1, h.2.1, h.2.2⟩
    · exact h
  · exact ⟨h.1, h.2.1, h.2.2⟩
  · exact h

theorem inv_submitInput (a : App) (h : Inv a) : Inv (submitInput a) := by
  unfold submitInput
  split
  · split
    case _ n hn => exact inv_jumpToPage a h n
    case _ => exact ⟨h.1, h.2.1, h.2.2⟩
  · exact inv_executeSearch a h
  · exact h

theorem inv_stepNormalChar (a : App) (h : Inv a) (c : Char) :
    Inv (stepNormalChar a c) := by
  unfold stepNormalChar
  split_ifs <;>
    first
      | exact ⟨h.1, h.2.1, h.2.2⟩
      | exact inv_nextPage a h
      | exact inv_prevPage a h
      | exact inv_nextSearchResult a h
      | exact inv_prevSearchResult a h

theorem inv_stepNormalEsc (a : App) (h : Inv a) : Inv (stepNormalEsc a) := by
  unfold stepNormalEsc
  split
  · exact inv_clearSearch a h
  · exact ⟨h.1, h.2.1, h.2.2⟩

theorem inv_step (a : App) (h : Inv a) (k : KeyCode) : Inv (step a k) := by
  unfold step
  split
  · cases k with
    | char c => exact inv_stepNormalChar a h c
    | esc => exact inv_stepNormalEsc a h
    | enter => exact h
    | backspaceKey => exact h
    | left => exact inv_prevPage a h
    | right => exact inv_nextPage a h
    | up => exact ⟨h.1, h.2.1, h.2.2⟩
    | down => exact ⟨h.1, h.2.1, h.2.2⟩
    | home => exact inv_goHome a h
    | endKey => exact inv_goEnd a h
    | other => exact h
  · cases k with
    | enter => exact inv_submitInput a h
    | esc => exact ⟨h.1, h.2.1, h.2.2⟩
    | backspaceKey => exact ⟨h.1, h.2.1, h.2.2⟩
    | char c => exact inv_handleInput a h c
    | left => exact h
    | right => exact h
    | up => exact h
    | down => exact h
    | home => exact h
    | endKey => exact h
    | other => exact h
  · cases k with
    | enter => exact inv_submitInput a h
    | esc => exact ⟨h.1, h.2.1, h.2.2⟩
    | backspaceKey => exact ⟨h.1, h.2.1, h.2.2⟩
    | char c => exact inv_handleInput a h c
    | left => exact h
    | right => exact h
    | up => exact h
    | down => exact h
    | home => exact h
    | endKey => exact h
    | other => exact h

/-- C9: from any state satisfying the navigation invariant (non-empty page
list, current page in range, all stored search results naming in-range
pages — the last being what a search over the same pages establishes), every
key-event transition and every individual operation preserves the invariant,
hence keeps the current page a valid index. -/
theorem current_page_in_range (a : App) (h : Inv a) :
    (∀ k, Inv (step a k)) ∧ Inv (nextPage a) ∧ Inv (prevPage a) ∧
    (∀ n, Inv (jumpToPage a n)) ∧ Inv (goHome a) ∧ Inv (goEnd a) ∧
    Inv (goToSearchResult a) ∧ Inv (executeSearch a) ∧
    Inv (nextSearchResult a) ∧ Inv (prevSearchResult a) :=
  ⟨fun k => inv_step a h k, inv_nextPage a h, inv_prevPage a h,
    inv_jumpToPage a h, inv_goHome a h, inv_goEnd a h, inv_goToSearchResult a h,
    inv_executeSearch a h, inv_nextSearchResult a h, inv_prevSearchResult a h⟩

theorem current_page_in_range_witness :
    Inv (step (App.new [['a']]) .esc) ∧ Inv (nextPage (App.new [['a']])) := by
  have h : Inv (App.new [['a']]) := by
    refine ⟨by decide, by decide, ?_⟩
    intro r hr
    simp [App.new] at hr
  exact ⟨(current_page_in_range (App.new [['a']]) h).1 .esc,
    (current_page_in_range (App.new [['a']]) h).2.1⟩

end PdfReader
